import Mathlib

/-!
Verification of the HCF device detector's evidence-fusion core.

The definitions below are a shallow embedding of the scoring system in
`src/js/detector/engine.js` (class `OSScoreSystem`, class
`DeviceDetectionEngine`) and of the application driver in `src/js/main.js`
(class `DeviceDetectorApp`).  JavaScript objects with string keys preserve
insertion order, so the score object is embedded as an association list in
declaration order; the (integer-valued) scores and weights are embedded as
`Int`.  The one fractional computation, `Math.round((maxScore / totalScore)
* 100)`, is embedded as an exact integer computation `jsRoundDiv (100 *
maxScore) totalScore` and related by a proved lemma to its mathematical
reading `⌊q + 1/2⌋` on `ℚ` (`specRound`), which is how the specification
phrases it.
-/

namespace HCF

/-- One row of the `this.scores` object: hypothesis name and accumulated score. -/
abbrev Scores := List (String × Int)

/-- An observation fed to `addScore`: the `targets` list and the `weight`. -/
structure Observation where
  targets : List String
  weight : Int
deriving DecidableEq, Repr

/-- The result object of `getTopOS`: `{ os, confidence }`. -/
structure TopResult where
  os : String
  confidence : Int
deriving DecidableEq, Repr

/-- `Math.max(...values)` for the (always nonempty) list of score values.
The `[]` case is unreachable in the program: the constructor always installs
six keys. -/
def listMax : List Int → Int
  | [] => 0
  | v :: vs => vs.foldl max v

/-- `values.reduce((a, b) => a + b, 0)`. -/
def sumInts (l : List Int) : Int := l.foldl (· + ·) 0

/-- `Math.round` of the exact quotient `a / b` (round half toward positive
infinity), computed entirely over `Int` so that it evaluates by `decide`.
Every use in the program has `b > 0`, where this equals `⌊a/b + 1/2⌋`
(lemma `jsRoundDiv_eq_specRound`). -/
def jsRoundDiv (a b : ℤ) : ℤ :=
  if 0 ≤ b then (2 * a + b).fdiv (2 * b) else (2 * (-a) + (-b)).fdiv (2 * (-b))

/-- The specification's reading of `Math.round`: round half up on `ℚ`. -/
def specRound (q : ℚ) : ℤ := ⌊q + 1/2⌋

/-- The hypothesis enumeration fixed by the `OSScoreSystem` constructor,
in declaration (hence iteration) order. -/
def osHypotheses : List String := ["macOS", "Windows", "Linux", "iOS", "iPadOS", "Android"]

/-- A zero-initialized score object over the given hypothesis keys. -/
def initScores (hyps : List String) : Scores := hyps.map (fun h => (h, 0))

/-- `new OSScoreSystem()`: the six OS keys, all at score 0. -/
def engineInit : Scores := initScores osHypotheses

/-- `OSScoreSystem.addScore(targets, weight)`: for each target present among
the keys (`hasOwnProperty`), add `weight` to that key's score.  Targets not
among the keys are skipped silently; the weight is not validated. -/
def addScore (s : Scores) (targets : List String) (weight : Int) : Scores :=
  targets.foldl
    (fun acc target =>
      if target ∈ acc.map Prod.fst then
        acc.map (fun p => if p.1 = target then (p.1, p.2 + weight) else p)
      else acc)
    s

/-- Apply one observation to the ledger (one `addScore` call). -/
def applyObs (s : Scores) (o : Observation) : Scores := addScore s o.targets o.weight

/-- Apply a sequence of observations in order. -/
def applyAll (s : Scores) (obs : List Observation) : Scores := obs.foldl applyObs s

/-- The net contribution of a list of observations to the key `k`: each
observation whose target list mentions `k` (once per mention) contributes its
weight. -/
def obsDelta (obs : List Observation) (k : String) : Int :=
  sumInts (obs.map (fun o => o.weight * (o.targets.count k : ℤ)))

/-- The total score `Object.values(this.scores).reduce((a,b) => a+b, 0)`. -/
def totalScore (s : Scores) : Int := sumInts (s.map Prod.snd)

/-- The maximum score `Math.max(...Object.values(this.scores))`. -/
def maxScoreOf (s : Scores) : Int := listMax (s.map Prod.snd)

/-- `OSScoreSystem.getTopOS()`: guard on `maxScore === 0 || totalScore === 0`,
otherwise take the first entry whose score equals the maximum and report
`Math.round((maxScore / totalScore) * 100)`.  The `none` branch of the match
is unreachable: past the guard the list is nonempty and the maximum is
attained. -/
def getTopOS (s : Scores) : TopResult :=
  let maxS := maxScoreOf s
  let totalS := totalScore s
  if maxS = 0 ∨ totalS = 0 then ⟨"未知", 0⟩
  else
    match s.find? (fun p => p.2 == maxS) with
    | some p => ⟨p.1, jsRoundDiv (100 * maxS) totalS⟩
    | none => ⟨"未知", 0⟩

/-- The per-hypothesis confidence value for score `v` out of total `t`.
Modelled from the spec: the code computes `Math.round((score / totalScore) *
100)` only for the maximal score (engine.js line 250); the spec's
`confidenceOf(hypothesis)` applies that same formula to every hypothesis,
guarded to 0 when the total is 0. -/
def confidenceValue (t v : Int) : Int :=
  if t = 0 then 0 else jsRoundDiv (100 * v) t

/-- The sum of the per-hypothesis confidences over the ledger's entries. -/
def confSum (s : Scores) : Int :=
  sumInts ((s.map Prod.snd).map (confidenceValue (totalScore s)))

/-- `DeviceDetectionEngine.startDetection()`, restricted to its effect on the
persistent `this.scoreSystem`: the observations that fire during the run are
added to the existing ledger (there is no reset), and the result is
`getTopOS` of the mutated ledger. -/
def startDetectionRun (s : Scores) (obs : List Observation) : Scores × TopResult :=
  let s2 := applyAll s obs
  (s2, getTopOS s2)

/-- `DeviceDetectionEngine.startDetection()` viewed as an orchestration of
source steps awaited in order with no try/catch: each step either yields its
fired observations or throws; a thrown error rejects the whole run before any
later step executes. -/
def runSources : List (Except String (List Observation)) → Scores → Except String (Scores × TopResult)
  | [], s => .ok (s, getTopOS s)
  | src :: rest, s =>
    match src with
    | .error e => .error e
    | .ok obs => runSources rest (applyAll s obs)

/-- `DeviceDetectorApp.startDetection()`'s try/catch around the engine run:
an engine error is caught (`showErrorState`) and no detection result is
produced. -/
def appRunDetection (sources : List (Except String (List Observation))) (s : Scores) :
    Option TopResult :=
  match runSources sources s with
  | .ok r => some r.2
  | .error _ => none

/-- `DeviceDetectorApp.startDetection()`'s re-entrancy guard on
`this.isDetecting`: when a run is in flight the call logs a warning and
returns normally (`Except.ok none` — the promise resolves with no result and
no error is thrown), leaving the flag and the engine's ledger untouched;
otherwise the run executes and the flag is cleared in the `finally` block. -/
def appStartDetection (isDetecting : Bool) (s : Scores) (obs : List Observation) :
    Bool × Scores × Except String (Option TopResult) :=
  if isDetecting then (isDetecting, s, Except.ok none)
  else
    let r := startDetectionRun s obs
    (false, r.1, Except.ok (some r.2))

/-! ### Helper lemmas about the embedded primitives -/

theorem foldl_add_eq (l : List Int) : ∀ a : Int, l.foldl (· + ·) a = a + l.sum := by
  induction l with
  | nil => intro a; simp
  | cons v vs ih => intro a; simp only [List.foldl_cons, ih, List.sum_cons]; ring

theorem sumInts_eq_sum (l : List Int) : sumInts l = l.sum := by
  simp [sumInts, foldl_add_eq]

theorem le_foldl_max (l : List Int) : ∀ a : Int, a ≤ l.foldl max a := by
  induction l with
  | nil => intro a; simp
  | cons v vs ih =>
    intro a
    exact le_trans (le_max_left a v) (ih (max a v))

theorem mem_le_foldl_max : ∀ (l : List Int) (a : Int) {v : Int}, v ∈ l → v ≤ l.foldl max a := by
  intro l
  induction l with
  | nil => intro a v hv; cases hv
  | cons w ws ih =>
    intro a v hv
    rcases List.mem_cons.mp hv with h | h
    · subst h
      exact le_trans (le_max_right a v) (le_foldl_max ws _)
    · exact ih _ h

theorem foldl_max_le : ∀ (l : List Int) {a M : Int}, a ≤ M → (∀ v ∈ l, v ≤ M) →
    l.foldl max a ≤ M := by
  intro l
  induction l with
  | nil => intro a M ha _; simpa using ha
  | cons w ws ih =>
    intro a M ha h
    exact ih (max_le ha (h w (List.mem_cons_self w ws))) fun v hv => h v (List.mem_cons_of_mem _ hv)

theorem foldl_max_mem_or (l : List Int) : ∀ a : Int, l.foldl max a = a ∨ l.foldl max a ∈ l := by
  induction l with
  | nil => intro a; left; rfl
  | cons v vs ih =>
    intro a
    rcases ih (max a v) with h | h
    · rcases le_total a v with hav | hva
      · right
        rw [List.foldl_cons, h, max_eq_right hav]
        exact List.mem_cons_self v vs
      · left
        rw [List.foldl_cons, h, max_eq_left hva]
    · right
      exact List.mem_cons_of_mem _ h

theorem le_listMax {l : List Int} {v : Int} (hv : v ∈ l) : v ≤ listMax l := by
  cases l with
  | nil => cases hv
  | cons w ws =>
    rcases List.mem_cons.mp hv with h | h
    · subst h; exact le_foldl_max ws v
    · exact mem_le_foldl_max ws w h

theorem listMax_mem {l : List Int} (hl : l ≠ []) : listMax l ∈ l := by
  cases l with
  | nil => exact absurd rfl hl
  | cons w ws =>
    rcases foldl_max_mem_or ws w with h | h
    · rw [listMax, h]; exact List.mem_cons_self w ws
    · exact List.mem_cons_of_mem _ h

theorem listMax_le {l : List Int} {M : Int} (hl : l ≠ []) (h : ∀ v ∈ l, v ≤ M) :
    listMax l ≤ M := by
  cases l with
  | nil => exact absurd rfl hl
  | cons w ws =>
    exact foldl_max_le ws (h w (List.mem_cons_self w ws))
      fun v hv => h v (List.mem_cons_of_mem _ hv)

/-- `jsRoundDiv` with a positive denominator is round-half-up of the exact quotient. -/
theorem jsRoundDiv_eq_specRound (a : ℤ) {b : ℤ} (hb : 0 < b) :
    jsRoundDiv a b = specRound ((a : ℚ) / (b : ℚ)) := by
  have h2b : (0 : ℤ) < 2 * b := by positivity
  have hstep : jsRoundDiv a b = (2 * a + b) / (2 * b) := by
    rw [jsRoundDiv, if_pos hb.le, Int.fdiv_eq_ediv _ h2b.le]
  have hcast : (((2 * b).toNat : ℕ) : ℤ) = 2 * b := Int.toNat_of_nonneg h2b.le
  have hfloor : ⌊((2 * a + b : ℤ) : ℚ) / (((2 * b).toNat : ℕ) : ℚ)⌋
      = (2 * a + b) / (((2 * b).toNat : ℕ) : ℤ) :=
    Rat.floor_intCast_div_natCast (2 * a + b) ((2 * b).toNat)
  have hbQ : ((b : ℚ)) ≠ 0 := by exact_mod_cast hb.ne'
  have hden : (((2 * b).toNat : ℕ) : ℚ) = 2 * (b : ℚ) := by exact_mod_cast hcast
  have harg : ((2 * a + b : ℤ) : ℚ) / (((2 * b).toNat : ℕ) : ℚ)
      = (a : ℚ) / (b : ℚ) + 1 / 2 := by
    rw [hden]
    push_cast
    field_simp
    ring
  rw [hstep, specRound, ← harg, hfloor, hcast]

theorem specRound_le (q : ℚ) : (specRound q : ℚ) ≤ q + 1 / 2 := Int.floor_le _

theorem lt_specRound (q : ℚ) : q - 1 / 2 < (specRound q : ℚ) := by
  have h := Int.sub_one_lt_floor (q + 1 / 2)
  rw [specRound]
  linarith

theorem le_specRound_of {n : ℤ} {q : ℚ} (h : (n : ℚ) ≤ q + 1 / 2) : n ≤ specRound q :=
  Int.le_floor.mpr h

/-! ### Closed forms for score accumulation -/

theorem addScore_eq_map (s : Scores) (ts : List String) (w : Int) :
    addScore s ts w = s.map (fun p => (p.1, p.2 + w * (ts.count p.1 : ℤ))) := by
  induction ts generalizing s with
  | nil =>
    simp [addScore]
  | cons t ts ih =>
    have hstep : addScore s (t :: ts) w
        = addScore
            (if t ∈ s.map Prod.fst then
              s.map (fun p => if p.1 = t then (p.1, p.2 + w) else p)
            else s) ts w := rfl
    rw [hstep]
    by_cases ht : t ∈ s.map Prod.fst
    · rw [if_pos ht, ih, List.map_map]
      refine List.map_congr_left fun p _ => ?_
      by_cases hpt : p.1 = t
      · simp only [Function.comp_apply, if_pos hpt, List.count_cons, hpt, beq_self_eq_true,
          if_true]
        push_cast
        ring_nf
      · have : (t == p.1) = false := by
          simp [beq_eq_false_iff_ne]
          exact fun h => hpt h.symm
        simp only [Function.comp_apply, if_neg hpt, List.count_cons, this]
        push_cast
        ring_nf
    · rw [if_neg ht, ih]
      refine List.map_congr_left fun p hp => ?_
      have hpt : p.1 ≠ t := by
        intro h
        exact ht (h ▸ List.mem_map_of_mem Prod.fst hp)
      have : (t == p.1) = false := by
        simp [beq_eq_false_iff_ne]
        exact fun h => hpt h.symm
      simp only [List.count_cons, this]
      push_cast
      ring_nf

theorem obsDelta_nil (k : String) : obsDelta [] k = 0 := rfl

theorem obsDelta_cons (o : Observation) (os : List Observation) (k : String) :
    obsDelta (o :: os) k = o.weight * (o.targets.count k : ℤ) + obsDelta os k := by
  simp [obsDelta, sumInts_eq_sum]

theorem applyAll_eq_map (s : Scores) (obs : List Observation) :
    applyAll s obs = s.map (fun p => (p.1, p.2 + obsDelta obs p.1)) := by
  induction obs generalizing s with
  | nil =>
    simp [applyAll, obsDelta_nil]
  | cons o os ih =>
    have hstep : applyAll s (o :: os) = applyAll (applyObs s o) os := rfl
    rw [hstep, ih, applyObs, addScore_eq_map, List.map_map]
    refine List.map_congr_left fun p _ => ?_
    simp only [Function.comp_apply, obsDelta_cons]
    ring_nf

theorem applyAll_keys (s : Scores) (obs : List Observation) :
    (applyAll s obs).map Prod.fst = s.map Prod.fst := by
  rw [applyAll_eq_map, List.map_map]
  rfl

/-! ### Structure of `getTopOS` -/

theorem sum_nonpos_int : ∀ {l : List Int}, (∀ v ∈ l, v ≤ 0) → l.sum ≤ 0 := by
  intro l
  induction l with
  | nil => intro _; simp
  | cons v vs ih =>
    intro h
    have hv := h v (List.mem_cons_self v vs)
    have hvs := ih fun u hu => h u (List.mem_cons_of_mem _ hu)
    simp only [List.sum_cons]
    omega

theorem exists_pos_of_total_pos {s : Scores} (h : 0 < totalScore s) :
    ∃ p ∈ s, 0 < p.2 := by
  by_contra hc
  push_neg at hc
  have : totalScore s ≤ 0 := by
    rw [totalScore, sumInts_eq_sum]
    exact sum_nonpos_int fun v hv => by
      obtain ⟨p, hp, rfl⟩ := List.mem_map.mp hv
      exact hc p hp
  omega

theorem maxScoreOf_pos {s : Scores} (h : 0 < totalScore s) : 0 < maxScoreOf s := by
  obtain ⟨p, hp, hpos⟩ := exists_pos_of_total_pos h
  exact lt_of_lt_of_le hpos (le_listMax (List.mem_map_of_mem Prod.snd hp))

theorem ne_nil_of_total_pos {s : Scores} (h : 0 < totalScore s) : s ≠ [] := by
  intro hnil
  subst hnil
  simp [totalScore, sumInts] at h

/-- Past the zero guard, `getTopOS` returns the first maximal entry's name and
the rounded share of the maximal score. -/
theorem getTopOS_top {s : Scores} (h : 0 < totalScore s) :
    ∃ p, s.find? (fun q => q.2 == maxScoreOf s) = some p ∧ p ∈ s ∧ p.2 = maxScoreOf s ∧
      getTopOS s = ⟨p.1, jsRoundDiv (100 * maxScoreOf s) (totalScore s)⟩ := by
  have hmax := maxScoreOf_pos h
  have hne : s ≠ [] := ne_nil_of_total_pos h
  have hmapne : s.map Prod.snd ≠ [] := by
    intro hx
    exact hne (List.map_eq_nil_iff.mp hx)
  have hmem : maxScoreOf s ∈ s.map Prod.snd := listMax_mem hmapne
  obtain ⟨p, hp, hp2⟩ := List.mem_map.mp hmem
  have hex : ∃ x, x ∈ s ∧ (fun q : String × Int => q.2 == maxScoreOf s) x :=
    ⟨p, hp, by simp [hp2]⟩
  obtain ⟨q, hq⟩ := Option.isSome_iff_exists.mp (List.find?_isSome.mpr hex)
  have hq2 : q.2 = maxScoreOf s := by
    have := List.find?_some hq
    simpa using this
  refine ⟨q, hq, List.mem_of_find?_eq_some hq, hq2, ?_⟩
  simp only [getTopOS]
  rw [if_neg (by push_neg; exact ⟨hmax.ne', h.ne'⟩), hq]

theorem find?_first_match {α : Type} (p : α → Bool) :
    ∀ (pre : List α) (x : α) (post : List α), (∀ a ∈ pre, p a = false) → p x = true →
      (pre ++ x :: post).find? p = some x := by
  intro pre
  induction pre with
  | nil =>
    intro x post _ hx
    simpa using List.find?_cons_of_pos post hx
  | cons a as ih =>
    intro x post h hx
    have ha : p a = false := h a (List.mem_cons_self a as)
    rw [List.cons_append, List.find?_cons_of_neg _ (by simp [ha])]
    exact ih x post (fun b hb => h b (List.mem_cons_of_mem _ hb)) hx

/-! ### The claims -/

/-- C1: for every ledger state with total score > 0, the confidence reported
for the top hypothesis equals `round(100 * topScore / sum(all scores))`; the
three-hypothesis scenario with fired observations `(A, 8)`, `({A, B}, 6)`,
`(C, 2)` on a fresh zero ledger `[A, B, C]` yields scores A=14, B=6, C=2, top
hypothesis A and confidence 64; and when the total score is 0 the division is
guarded and the confidence is 0. -/
theorem c1_confidence_formula :
    (∀ s : Scores, 0 < totalScore s →
      (getTopOS s).confidence
        = specRound (100 * (maxScoreOf s : ℚ) / (totalScore s : ℚ)))
    ∧ applyAll (initScores ["A", "B", "C"]) [⟨["A"], 8⟩, ⟨["A", "B"], 6⟩, ⟨["C"], 2⟩]
        = [("A", 14), ("B", 6), ("C", 2)]
    ∧ getTopOS [("A", 14), ("B", 6), ("C", 2)] = ⟨"A", 64⟩
    ∧ (∀ s : Scores, totalScore s = 0 → (getTopOS s).confidence = 0) := by
  refine ⟨?_, by decide, by decide, ?_⟩
  · intro s hs
    obtain ⟨p, hfind, hmem, hp2, heq⟩ := getTopOS_top hs
    rw [heq]
    show jsRoundDiv (100 * maxScoreOf s) (totalScore s) = _
    rw [jsRoundDiv_eq_specRound _ hs]
    congr 1
    push_cast
    ring
  · intro s hs
    simp only [getTopOS]
    rw [if_pos (Or.inr hs)]

/-- Witness for C1: the scenario ledger has positive total and satisfies the
formula; the fresh engine ledger has total 0 and confidence 0. -/
theorem c1_confidence_formula_witness :
    (0 < totalScore [("A", 14), ("B", 6), ("C", 2)]
      ∧ (getTopOS [("A", 14), ("B", 6), ("C", 2)]).confidence
          = specRound (100 * (maxScoreOf [("A", 14), ("B", 6), ("C", 2)] : ℚ)
              / (totalScore [("A", 14), ("B", 6), ("C", 2)] : ℚ)))
    ∧ (totalScore engineInit = 0 ∧ (getTopOS engineInit).confidence = 0) :=
  ⟨⟨by decide, c1_confidence_formula.1 _ (by decide)⟩,
   ⟨by decide, c1_confidence_formula.2.2.2 _ (by decide)⟩⟩

/-- C2: when two or more hypotheses share the (nonzero) maximal score, the top
query returns the one declared first in the fixed enumeration order.  Stated
for an arbitrary split `pre ++ (k, m) :: post` in which the entries before the
first maximal entry score strictly less: `getTopOS` returns `k`.  The
embedding is a pure function, so every invocation returns this same value
(determinism).  The concrete instance ties macOS and Windows at 5 in the
engine's enumeration order and returns macOS. -/
theorem c2_tie_first_wins :
    (∀ (pre post : Scores) (k : String) (m : Int),
        (∀ p ∈ pre, 0 ≤ p.2 ∧ p.2 < m) → (∀ p ∈ post, 0 ≤ p.2 ∧ p.2 ≤ m) → 0 < m →
        (getTopOS (pre ++ (k, m) :: post)).os = k)
    ∧ (getTopOS (applyAll engineInit [⟨["macOS"], 5⟩, ⟨["Windows"], 5⟩])).os = "macOS" := by
  constructor
  · intro pre post k m hpre hpost hm
    have hvals : (pre ++ (k, m) :: post).map Prod.snd
        = pre.map Prod.snd ++ m :: post.map Prod.snd := by
      simp
    have hmemm : m ∈ (pre ++ (k, m) :: post).map Prod.snd := by
      rw [hvals]
      exact List.mem_append_right _ (List.mem_cons_self _ _)
    have hmax : maxScoreOf (pre ++ (k, m) :: post) = m := by
      refine le_antisymm (listMax_le ?_ ?_) (le_listMax hmemm)
      · intro hx
        rw [hvals] at hx
        simp at hx
      · intro v hv
        rw [hvals] at hv
        rcases List.mem_append.mp hv with h | h
        · obtain ⟨p, hp, rfl⟩ := List.mem_map.mp h
          exact (hpre p hp).2.le
        · rcases List.mem_cons.mp h with rfl | h
          · exact le_refl v
          · obtain ⟨p, hp, rfl⟩ := List.mem_map.mp h
            exact (hpost p hp).2
    have htot : 0 < totalScore (pre ++ (k, m) :: post) := by
      rw [totalScore, sumInts_eq_sum, hvals, List.sum_append, List.sum_cons]
      have h1 : 0 ≤ (pre.map Prod.snd).sum :=
        List.sum_nonneg fun v hv => by
          obtain ⟨p, hp, rfl⟩ := List.mem_map.mp hv
          exact (hpre p hp).1
      have h2 : 0 ≤ (post.map Prod.snd).sum :=
        List.sum_nonneg fun v hv => by
          obtain ⟨p, hp, rfl⟩ := List.mem_map.mp hv
          exact (hpost p hp).1
      omega
    obtain ⟨p, hfind, _, _, heq⟩ := getTopOS_top htot
    have hfind2 : (pre ++ (k, m) :: post).find?
        (fun q => q.2 == maxScoreOf (pre ++ (k, m) :: post)) = some (k, m) := by
      rw [hmax]
      refine find?_first_match _ pre (k, m) post (fun a ha => ?_) (by simp)
      have := (hpre a ha).2
      simp only [beq_eq_false_iff_ne, ne_eq]
      omega
    rw [hfind] at hfind2
    obtain rfl : p = (k, m) := (Option.some.injEq _ _).mp hfind2
    rw [heq]
  · decide

/-- Witness for C2: the general tie-break statement instantiated at the
engine enumeration with macOS and Windows tied at 5. -/
theorem c2_tie_first_wins_witness :
    ((∀ p ∈ ([] : Scores), 0 ≤ p.2 ∧ p.2 < 5)
      ∧ (∀ p ∈ ([("Windows", 5), ("Linux", 0), ("iOS", 0), ("iPadOS", 0),
            ("Android", 0)] : Scores), 0 ≤ p.2 ∧ p.2 ≤ 5)
      ∧ (0 : ℤ) < 5)
    ∧ (getTopOS (([] : Scores) ++ ("macOS", 5) :: [("Windows", 5), ("Linux", 0), ("iOS", 0),
        ("iPadOS", 0), ("Android", 0)])).os = "macOS" :=
  ⟨⟨by decide, by decide, by decide⟩,
   c2_tie_first_wins.1 [] [("Windows", 5), ("Linux", 0), ("iOS", 0), ("iPadOS", 0),
     ("Android", 0)] "macOS" 5 (by decide) (by decide) (by decide)⟩

/-- C3: whenever every hypothesis's score is 0 (no observation applied or all
sources failed), `getTopOS` returns the explicit unknown sentinel `"未知"`
with confidence exactly 0.  The embedding is a total function, so the query
returns normally on every such ledger — it cannot throw. -/
theorem c3_zero_unknown : ∀ s : Scores, (∀ p ∈ s, p.2 = 0) → getTopOS s = ⟨"未知", 0⟩ := by
  intro s hs
  have htot : totalScore s = 0 := by
    rw [totalScore, sumInts_eq_sum]
    refine List.sum_eq_zero fun v hv => ?_
    obtain ⟨p, hp, rfl⟩ := List.mem_map.mp hv
    exact hs p hp
  simp only [getTopOS]
  rw [if_pos (Or.inr htot)]

/-- Witness for C3: the freshly constructed engine ledger is all zero and
reports the unknown sentinel with confidence 0. -/
theorem c3_zero_unknown_witness :
    (∀ p ∈ engineInit, p.2 = 0) ∧ getTopOS engineInit = ⟨"未知", 0⟩ :=
  ⟨by decide, c3_zero_unknown engineInit (by decide)⟩

/-- Counterexample to C4: `addScore` has no validation and no error channel.
The observation `(targets = [macOS], weight = -5)` has weight ≤ 0, so per the
claim it should fail with `InvalidObservationError` and contribute nothing;
instead it is applied and drives the macOS score to -5. -/
theorem c4_counterexample :
    applyObs engineInit ⟨["macOS"], -5⟩
        = [("macOS", -5), ("Windows", 0), ("Linux", 0), ("iOS", 0), ("iPadOS", 0), ("Android", 0)]
    ∧ applyObs engineInit ⟨["macOS"], -5⟩ ≠ engineInit := by decide

/-- C4 as amended: applying an observation never fails (the embedding of
`addScore` is a total function — there is no `InvalidObservationError` in the
program).  Target names outside the ledger's key set are skipped silently and
contribute nothing (filtering them away does not change the result), the key
set itself is never altered, but the weight — even when ≤ 0 — is added for
every known target, as the concrete observation `([macOS, FreeBSD], -5)`
shows; the run continues in every case. -/
theorem c4_amended :
    (∀ (s : Scores) (ts : List String) (w : Int),
        addScore s ts w = addScore s (ts.filter (fun t => decide (t ∈ s.map Prod.fst))) w)
    ∧ (∀ (s : Scores) (ts : List String) (w : Int),
        (addScore s ts w).map Prod.fst = s.map Prod.fst)
    ∧ applyObs engineInit ⟨["macOS", "FreeBSD"], -5⟩
        = [("macOS", -5), ("Windows", 0), ("Linux", 0), ("iOS", 0), ("iPadOS", 0),
            ("Android", 0)] := by
  refine ⟨?_, ?_, by decide⟩
  · intro s ts w
    rw [addScore_eq_map, addScore_eq_map]
    refine List.map_congr_left fun p hp => ?_
    have hmem : p.1 ∈ s.map Prod.fst := List.mem_map_of_mem Prod.fst hp
    have hcount : (ts.filter (fun t => decide (t ∈ s.map Prod.fst))).count p.1 = ts.count p.1 :=
      List.count_filter (by simpa using hmem)
    rw [hcount]
  · intro s ts w
    rw [addScore_eq_map, List.map_map]
    rfl

/-- Counterexample to C5: a throwing source aborts the engine run.  With the
source list `[throwing, ok [(macOS, 8)]]` the run rejects with the error and
the second source's observation is never applied, whereas omitting the
throwing source yields a normal result — the two runs do not agree. -/
theorem c5_counterexample :
    runSources [Except.error "boom", Except.ok [⟨["macOS"], 8⟩]] engineInit
        = Except.error "boom"
    ∧ runSources [Except.ok [⟨["macOS"], 8⟩]] engineInit
        = Except.ok ([("macOS", 8), ("Windows", 0), ("Linux", 0), ("iOS", 0), ("iPadOS", 0),
            ("Android", 0)], ⟨"macOS", 100⟩)
    ∧ runSources [Except.error "boom", Except.ok [⟨["macOS"], 8⟩]] engineInit
        ≠ runSources [Except.ok [⟨["macOS"], 8⟩]] engineInit := by
  refine ⟨rfl, rfl, fun h => ?_⟩
  exact Except.noConfusion h

/-- C5 as amended: `startDetection` awaits its source steps with no try/catch,
so the run aborts at the first throwing source with that source's error:
sources before it are still applied, sources after it are not, and the
app-level caller catches the error and produces no detection result at all.
Only when no source throws are all observations applied and the result
computed. -/
theorem c5_amended :
    (∀ (pres : List (List Observation)) (e : String)
        (rest : List (Except String (List Observation))) (s : Scores),
        runSources (pres.map Except.ok ++ Except.error e :: rest) s = Except.error e)
    ∧ (∀ (pres : List (List Observation)) (s : Scores),
        runSources (pres.map Except.ok) s
          = Except.ok (applyAll s pres.flatten, getTopOS (applyAll s pres.flatten)))
    ∧ (∀ (pres : List (List Observation)) (e : String)
        (rest : List (Except String (List Observation))) (s : Scores),
        appRunDetection (pres.map Except.ok ++ Except.error e :: rest) s = none) := by
  have habort : ∀ (pres : List (List Observation)) (e : String)
      (rest : List (Except String (List Observation))) (s : Scores),
      runSources (pres.map Except.ok ++ Except.error e :: rest) s = Except.error e := by
    intro pres
    induction pres with
    | nil => intro e rest s; rfl
    | cons o os ih => intro e rest s; exact ih e rest (applyAll s o)
  refine ⟨habort, ?_, ?_⟩
  · intro pres
    induction pres with
    | nil => intro s; rfl
    | cons o os ih =>
      intro s
      have hstep : runSources ((o :: os).map Except.ok) s
          = runSources (os.map Except.ok) (applyAll s o) := rfl
      rw [hstep, ih]
      have hjoin : applyAll s (o :: os).flatten = applyAll (applyAll s o) os.flatten := by
        simp [List.flatten, applyAll, List.foldl_append]
      rw [hjoin]
  · intro pres e rest s
    rw [appRunDetection, habort]

/-- Counterexample to C6: scores carry over across runs on the same engine.
Running the single fired observation `(macOS, 6)` twice in succession (as
`restartDetection` does) leaves macOS at 12, not at the fresh-run score 6. -/
theorem c6_counterexample :
    (startDetectionRun (startDetectionRun engineInit [⟨["macOS"], 6⟩]).1 [⟨["macOS"], 6⟩]).1
        = [("macOS", 12), ("Windows", 0), ("Linux", 0), ("iOS", 0), ("iPadOS", 0), ("Android", 0)]
    ∧ (startDetectionRun engineInit [⟨["macOS"], 6⟩]).1
        = [("macOS", 6), ("Windows", 0), ("Linux", 0), ("iOS", 0), ("iPadOS", 0), ("Android", 0)]
    ∧ (startDetectionRun (startDetectionRun engineInit [⟨["macOS"], 6⟩]).1 [⟨["macOS"], 6⟩]).1
        ≠ (startDetectionRun engineInit [⟨["macOS"], 6⟩]).1 := by decide

/-- C6 as amended: only a freshly constructed engine's ledger is all zero.
`startDetection` never resets the ledger — a run's final ledger is the prior
ledger plus the run's observations — so restarting on the same engine
accumulates: running the same fired observations a second time yields exactly
doubled scores instead of the fresh-run scores. -/
theorem c6_amended :
    engineInit.map Prod.snd = [0, 0, 0, 0, 0, 0]
    ∧ (∀ (s : Scores) (obs : List Observation), (startDetectionRun s obs).1 = applyAll s obs)
    ∧ (∀ obs : List Observation,
        (startDetectionRun (startDetectionRun engineInit obs).1 obs).1
          = (startDetectionRun engineInit obs).1.map (fun p => (p.1, 2 * p.2))) := by
  refine ⟨by decide, fun s obs => rfl, ?_⟩
  intro obs
  show applyAll (applyAll engineInit obs) obs
      = (applyAll engineInit obs).map (fun p => (p.1, 2 * p.2))
  rw [applyAll_eq_map engineInit obs, applyAll_eq_map, List.map_map, List.map_map]
  refine List.map_congr_left fun p hp => ?_
  have h0 : p.2 = 0 := (by decide : ∀ p ∈ engineInit, p.2 = 0) p hp
  simp only [Function.comp_apply, Prod.mk.injEq, true_and]
  rw [h0]
  ring

/-- C7: applying any permutation of a fixed list of fired observations to the
freshly zero-initialized ledger yields identical final scores, hence an
identical top hypothesis and identical confidence. -/
theorem c7_permutation :
    ∀ (obs₁ obs₂ : List Observation), obs₁.Perm obs₂ →
      applyAll engineInit obs₁ = applyAll engineInit obs₂
      ∧ getTopOS (applyAll engineInit obs₁) = getTopOS (applyAll engineInit obs₂) := by
  intro obs₁ obs₂ hperm
  have hscores : applyAll engineInit obs₁ = applyAll engineInit obs₂ := by
    rw [applyAll_eq_map, applyAll_eq_map]
    refine List.map_congr_left fun p _ => ?_
    have hdelta : obsDelta obs₁ p.1 = obsDelta obs₂ p.1 := by
      rw [obsDelta, obsDelta, sumInts_eq_sum, sumInts_eq_sum]
      exact (hperm.map _).sum_eq
    rw [hdelta]
  exact ⟨hscores, by rw [hscores]⟩

/-- Witness for C7: swapping two concrete fired observations leaves the final
scores and the detection result unchanged. -/
theorem c7_permutation_witness :
    ([⟨["macOS"], 8⟩, ⟨["Windows"], 3⟩] : List Observation).Perm
        [⟨["Windows"], 3⟩, ⟨["macOS"], 8⟩]
    ∧ applyAll engineInit [⟨["macOS"], 8⟩, ⟨["Windows"], 3⟩]
        = applyAll engineInit [⟨["Windows"], 3⟩, ⟨["macOS"], 8⟩]
    ∧ getTopOS (applyAll engineInit [⟨["macOS"], 8⟩, ⟨["Windows"], 3⟩])
        = getTopOS (applyAll engineInit [⟨["Windows"], 3⟩, ⟨["macOS"], 8⟩]) :=
  ⟨by decide, (c7_permutation _ _ (by decide)).1, (c7_permutation _ _ (by decide)).2⟩

/-- Counterexample to C9: a second `startDetection` call while a run is in
flight does not fail with any error.  With the busy flag set, the call
resolves normally with no result (`Except.ok none` — an
`AlreadyRunningError` would be `Except.error`), and leaves the flag and the
ledger untouched. -/
theorem c9_counterexample :
    appStartDetection true engineInit [⟨["macOS"], 6⟩] = (true, engineInit, Except.ok none) :=
  rfl

/-- C9 as amended: the re-entrancy guard on `isDetecting` silently skips a
second call while a run is in flight — it logs a warning and returns normally
with no error and no result, leaving the flag and the in-flight run's ledger
unaffected; a call on an idle engine runs to completion and delivers the
result. -/
theorem c9_amended :
    ∀ (s : Scores) (obs : List Observation),
      appStartDetection true s obs = (true, s, Except.ok none)
      ∧ appStartDetection false s obs
          = (false, applyAll s obs, Except.ok (some (getTopOS (applyAll s obs)))) :=
  fun _ _ => ⟨rfl, rfl⟩

/-- Every ledger reachable from the fresh engine is the six fixed keys with
the accumulated per-key contributions. -/
theorem engine_ledger_form (obs : List Observation) :
    applyAll engineInit obs
      = [("macOS", obsDelta obs "macOS"), ("Windows", obsDelta obs "Windows"),
         ("Linux", obsDelta obs "Linux"), ("iOS", obsDelta obs "iOS"),
         ("iPadOS", obsDelta obs "iPadOS"), ("Android", obsDelta obs "Android")] := by
  rw [applyAll_eq_map]
  simp [engineInit, initScores, osHypotheses]

/-- The confidence sum over a six-entry ledger with positive total lies in
`(97, 103]`. -/
theorem confSum_six_bounds (a b c d e f : ℤ) (h : 0 < a + b + c + d + e + f) :
    97 < confSum [("macOS", a), ("Windows", b), ("Linux", c), ("iOS", d), ("iPadOS", e),
        ("Android", f)]
    ∧ confSum [("macOS", a), ("Windows", b), ("Linux", c), ("iOS", d), ("iPadOS", e),
        ("Android", f)] ≤ 103 := by
  have hTeq : totalScore [("macOS", a), ("Windows", b), ("Linux", c), ("iOS", d), ("iPadOS", e),
      ("Android", f)] = a + b + c + d + e + f := by
    simp [totalScore, sumInts]
  have hTQ : (0 : ℚ) < ((a + b + c + d + e + f : ℤ) : ℚ) := by exact_mod_cast h
  have hcv : ∀ v : ℤ,
      confidenceValue (totalScore [("macOS", a), ("Windows", b), ("Linux", c), ("iOS", d),
        ("iPadOS", e), ("Android", f)]) v
      = specRound (100 * (v : ℚ) / ((a + b + c + d + e + f : ℤ) : ℚ)) := by
    intro v
    rw [hTeq, confidenceValue, if_neg h.ne', jsRoundDiv_eq_specRound _ h]
    congr 1
    push_cast
    ring
  have hcs : confSum [("macOS", a), ("Windows", b), ("Linux", c), ("iOS", d), ("iPadOS", e),
      ("Android", f)]
      = specRound (100 * (a : ℚ) / ((a + b + c + d + e + f : ℤ) : ℚ))
        + specRound (100 * (b : ℚ) / ((a + b + c + d + e + f : ℤ) : ℚ))
        + specRound (100 * (c : ℚ) / ((a + b + c + d + e + f : ℤ) : ℚ))
        + specRound (100 * (d : ℚ) / ((a + b + c + d + e + f : ℤ) : ℚ))
        + specRound (100 * (e : ℚ) / ((a + b + c + d + e + f : ℤ) : ℚ))
        + specRound (100 * (f : ℚ) / ((a + b + c + d + e + f : ℤ) : ℚ)) := by
    simp only [confSum, List.map_cons, List.map_nil, sumInts, List.foldl_cons, List.foldl_nil,
      hcv]
    ring
  have hq : 100 * (a : ℚ) / ((a + b + c + d + e + f : ℤ) : ℚ)
      + 100 * (b : ℚ) / ((a + b + c + d + e + f : ℤ) : ℚ)
      + 100 * (c : ℚ) / ((a + b + c + d + e + f : ℤ) : ℚ)
      + 100 * (d : ℚ) / ((a + b + c + d + e + f : ℤ) : ℚ)
      + 100 * (e : ℚ) / ((a + b + c + d + e + f : ℤ) : ℚ)
      + 100 * (f : ℚ) / ((a + b + c + d + e + f : ℤ) : ℚ) = 100 := by
    have hne : ((a + b + c + d + e + f : ℤ) : ℚ) ≠ 0 := hTQ.ne'
    have hcollect : 100 * (a : ℚ) / ((a + b + c + d + e + f : ℤ) : ℚ)
        + 100 * (b : ℚ) / ((a + b + c + d + e + f : ℤ) : ℚ)
        + 100 * (c : ℚ) / ((a + b + c + d + e + f : ℤ) : ℚ)
        + 100 * (d : ℚ) / ((a + b + c + d + e + f : ℤ) : ℚ)
        + 100 * (e : ℚ) / ((a + b + c + d + e + f : ℤ) : ℚ)
        + 100 * (f : ℚ) / ((a + b + c + d + e + f : ℤ) : ℚ)
        = (100 * (a : ℚ) + 100 * (b : ℚ) + 100 * (c : ℚ) + 100 * (d : ℚ) + 100 * (e : ℚ)
            + 100 * (f : ℚ)) / ((a + b + c + d + e + f : ℤ) : ℚ) := by
      ring
    rw [hcollect, div_eq_iff hne]
    push_cast
    ring
  have bA1 := specRound_le (100 * (a : ℚ) / ((a + b + c + d + e + f : ℤ) : ℚ))
  have bB1 := specRound_le (100 * (b : ℚ) / ((a + b + c + d + e + f : ℤ) : ℚ))
  have bC1 := specRound_le (100 * (c : ℚ) / ((a + b + c + d + e + f : ℤ) : ℚ))
  have bD1 := specRound_le (100 * (d : ℚ) / ((a + b + c + d + e + f : ℤ) : ℚ))
  have bE1 := specRound_le (100 * (e : ℚ) / ((a + b + c + d + e + f : ℤ) : ℚ))
  have bF1 := specRound_le (100 * (f : ℚ) / ((a + b + c + d + e + f : ℤ) : ℚ))
  have bA2 := lt_specRound (100 * (a : ℚ) / ((a + b + c + d + e + f : ℤ) : ℚ))
  have bB2 := lt_specRound (100 * (b : ℚ) / ((a + b + c + d + e + f : ℤ) : ℚ))
  have bC2 := lt_specRound (100 * (c : ℚ) / ((a + b + c + d + e + f : ℤ) : ℚ))
  have bD2 := lt_specRound (100 * (d : ℚ) / ((a + b + c + d + e + f : ℤ) : ℚ))
  have bE2 := lt_specRound (100 * (e : ℚ) / ((a + b + c + d + e + f : ℤ) : ℚ))
  have bF2 := lt_specRound (100 * (f : ℚ) / ((a + b + c + d + e + f : ℤ) : ℚ))
  rw [hcs]
  constructor
  · have hlow : (97 : ℚ)
        < (specRound (100 * (a : ℚ) / ((a + b + c + d + e + f : ℤ) : ℚ)) : ℚ)
          + (specRound (100 * (b : ℚ) / ((a + b + c + d + e + f : ℤ) : ℚ)) : ℚ)
          + (specRound (100 * (c : ℚ) / ((a + b + c + d + e + f : ℤ) : ℚ)) : ℚ)
          + (specRound (100 * (d : ℚ) / ((a + b + c + d + e + f : ℤ) : ℚ)) : ℚ)
          + (specRound (100 * (e : ℚ) / ((a + b + c + d + e + f : ℤ) : ℚ)) : ℚ)
          + (specRound (100 * (f : ℚ) / ((a + b + c + d + e + f : ℤ) : ℚ)) : ℚ) := by
      linarith
    exact_mod_cast hlow
  · have hhigh : (specRound (100 * (a : ℚ) / ((a + b + c + d + e + f : ℤ) : ℚ)) : ℚ)
          + (specRound (100 * (b : ℚ) / ((a + b + c + d + e + f : ℤ) : ℚ)) : ℚ)
          + (specRound (100 * (c : ℚ) / ((a + b + c + d + e + f : ℤ) : ℚ)) : ℚ)
          + (specRound (100 * (d : ℚ) / ((a + b + c + d + e + f : ℤ) : ℚ)) : ℚ)
          + (specRound (100 * (e : ℚ) / ((a + b + c + d + e + f : ℤ) : ℚ)) : ℚ)
          + (specRound (100 * (f : ℚ) / ((a + b + c + d + e + f : ℤ) : ℚ)) : ℚ)
        ≤ (103 : ℚ) := by
      linarith
    exact_mod_cast hhigh

/-- Counterexample to C8: one valid observation of weight 1 supporting all six
hypotheses gives every hypothesis score 1, total 6, per-hypothesis confidence
`round(100/6) = 17`, and confidence sum `6 * 17 = 102` — outside the claimed
band `100 ± 1`. -/
theorem c8_counterexample :
    0 < totalScore (applyAll engineInit [⟨osHypotheses, 1⟩])
    ∧ confSum (applyAll engineInit [⟨osHypotheses, 1⟩]) = 102
    ∧ ¬ confSum (applyAll engineInit [⟨osHypotheses, 1⟩]) ≤ 101 := by decide

/-- C8 as amended: over the six-hypothesis engine ledger, the sum of the
per-hypothesis confidences `round(100 * score / total)` lies within `100 ± 3`
(precisely, in `(97, 103]` — the counterexample `102` and the attainable
`103` force widening the claimed `± 1` band to `± 3`) whenever the total
score is positive, and every per-hypothesis confidence is 0 when the total
score is 0. -/
theorem c8_amended :
    ∀ obs : List Observation,
      (0 < totalScore (applyAll engineInit obs) →
        97 < confSum (applyAll engineInit obs) ∧ confSum (applyAll engineInit obs) ≤ 103)
      ∧ (totalScore (applyAll engineInit obs) = 0 →
        confSum (applyAll engineInit obs) = 0
        ∧ ∀ v : Int, confidenceValue (totalScore (applyAll engineInit obs)) v = 0) := by
  intro obs
  constructor
  · intro hpos
    rw [engine_ledger_form] at hpos ⊢
    rw [totalScore, sumInts_eq_sum] at hpos
    simp only [List.map_cons, List.map_nil, List.sum_cons, List.sum_nil, add_zero] at hpos
    exact confSum_six_bounds _ _ _ _ _ _ (by linarith)
  · intro h0
    constructor
    · rw [confSum, h0, sumInts_eq_sum]
      refine List.sum_eq_zero fun v hv => ?_
      obtain ⟨u, hu, rfl⟩ := List.mem_map.mp hv
      simp [confidenceValue]
    · intro v
      rw [h0]
      simp [confidenceValue]

/-- Witness for C8 (amended): the all-ones ledger has positive total and its
confidence sum 102 lies in the proved band; the empty run has total 0 and
confidence sum 0. -/
theorem c8_amended_witness :
    (0 < totalScore (applyAll engineInit [⟨osHypotheses, 1⟩])
      ∧ 97 < confSum (applyAll engineInit [⟨osHypotheses, 1⟩])
      ∧ confSum (applyAll engineInit [⟨osHypotheses, 1⟩]) ≤ 103)
    ∧ (totalScore (applyAll engineInit []) = 0 ∧ confSum (applyAll engineInit []) = 0) :=
  ⟨⟨by decide, ((c8_amended [⟨osHypotheses, 1⟩]).1 (by decide)).1,
    ((c8_amended [⟨osHypotheses, 1⟩]).1 (by decide)).2⟩,
   ⟨by decide, ((c8_amended []).2 (by decide)).1⟩⟩

/-- C10: on any six-hypothesis engine ledger whose scores are all nonnegative
with at least one positive, the reported confidence is at least 17, because
the maximal score is at least one sixth of the total and rounding is
monotone: the engine can never report a positive detection below 17%. -/
theorem c10_min_confidence :
    ∀ s : Scores, s.map Prod.fst = osHypotheses →
      (∀ p ∈ s, 0 ≤ p.2) → (∃ p ∈ s, 0 < p.2) →
      17 ≤ (getTopOS s).confidence := by
  intro s hkeys hnn hex
  obtain ⟨p₀, hp₀, hpos⟩ := hex
  have hvlen : (s.map Prod.snd).length = 6 := by
    have h1 : (s.map Prod.fst).length = 6 := by rw [hkeys]; rfl
    simp only [List.length_map] at h1 ⊢
    exact h1
  have hnnv : ∀ v ∈ s.map Prod.snd, 0 ≤ v := by
    intro v hv
    obtain ⟨p, hp, rfl⟩ := List.mem_map.mp hv
    exact hnn p hp
  have htot : 0 < totalScore s := by
    rw [totalScore, sumInts_eq_sum]
    have hle : p₀.2 ≤ (s.map Prod.snd).sum :=
      List.single_le_sum hnnv _ (List.mem_map_of_mem Prod.snd hp₀)
    omega
  have hsum6 : totalScore s ≤ 6 * maxScoreOf s := by
    rw [totalScore, sumInts_eq_sum]
    have hb := List.sum_le_card_nsmul (s.map Prod.snd) (maxScoreOf s)
      fun v hv => le_listMax hv
    rw [hvlen] at hb
    simpa using hb
  have hM : 0 < maxScoreOf s := maxScoreOf_pos htot
  obtain ⟨q, hfind, hqmem, hq2, heq⟩ := getTopOS_top htot
  rw [heq]
  show 17 ≤ jsRoundDiv (100 * maxScoreOf s) (totalScore s)
  rw [jsRoundDiv_eq_specRound _ htot]
  apply le_specRound_of
  have hTQ : (0 : ℚ) < (totalScore s : ℚ) := by exact_mod_cast htot
  have h6 : ((totalScore s : ℚ)) ≤ 6 * (maxScoreOf s : ℚ) := by exact_mod_cast hsum6
  have hMQ : (0 : ℚ) < (maxScoreOf s : ℚ) := by exact_mod_cast hM
  have key : (33 : ℚ) / 2 ≤ ((100 * maxScoreOf s : ℤ) : ℚ) / (totalScore s : ℚ) := by
    rw [le_div_iff₀ hTQ]
    push_cast
    linarith
  linarith

/-- Witness for C10: a ledger with macOS at 1 and all others 0 reports
confidence at least 17 (indeed exactly 100). -/
theorem c10_min_confidence_witness :
    (([("macOS", 1), ("Windows", 0), ("Linux", 0), ("iOS", 0), ("iPadOS", 0),
        ("Android", 0)] : Scores).map Prod.fst = osHypotheses
      ∧ (∀ p ∈ ([("macOS", 1), ("Windows", 0), ("Linux", 0), ("iOS", 0), ("iPadOS", 0),
          ("Android", 0)] : Scores), 0 ≤ p.2)
      ∧ (∃ p ∈ ([("macOS", 1), ("Windows", 0), ("Linux", 0), ("iOS", 0), ("iPadOS", 0),
          ("Android", 0)] : Scores), 0 < p.2))
    ∧ 17 ≤ (getTopOS [("macOS", 1), ("Windows", 0), ("Linux", 0), ("iOS", 0), ("iPadOS", 0),
        ("Android", 0)]).confidence :=
  ⟨⟨by decide, by decide, by decide⟩,
   c10_min_confidence _ (by decide) (by decide) (by decide)⟩

end HCF
